import Mathlib

/-!
Shallow embedding of the agentpy demo notebooks (button network, wealth
transfer, random-number guide) and of the minimal simulation core described in
the repository's design document.  Pure Lean definitions mirror the notebook
code; components of the underlying library that the notebooks only call are
modelled from the design document and marked as such.
-/

namespace AgentPySpec

/-- Modelled from the spec: the Deterministic Random Source (spec section 4.1).
The underlying library's seedable generator is not part of the notebook
sources; we model a Random Stream as a concrete linear-congruential generator
keyed by a seed, an "opaque stateful generator keyed by a seed" with 64-bit
state. -/
structure RandomStream where
  state : Nat
deriving DecidableEq

/-- Modelled from the spec: `create(seed) -> stream` (spec section 4.1). -/
def RandomStream.create (seed : Nat) : RandomStream :=
  ⟨seed % 2 ^ 64⟩

/-- One step of the linear-congruential generator (64-bit state). -/
def lcgStep (s : Nat) : Nat :=
  (6364136223846793005 * s + 1442695040888963407) % 2 ^ 64

/-- Advance the stream, returning a raw 64-bit draw and the new stream. -/
def RandomStream.next (g : RandomStream) : Nat × RandomStream :=
  let s := lcgStep g.state
  (s, ⟨s⟩)

/-- Modelled from the spec: `stream.integer(lo, hi)` (spec section 4.1),
a pseudo-random integer in `[lo, hi]`. -/
def RandomStream.integer (g : RandomStream) (lo hi : Nat) : Nat × RandomStream :=
  let (v, g') := g.next
  (lo + v % (hi + 1 - lo), g')

/-- A sequence of `k` integer draws from a stream, the "sequence of `k` draws"
of spec section 8. -/
def RandomStream.draws : RandomStream → Nat → Nat → Nat → List Nat
  | _, 0, _, _ => []
  | g, k + 1, lo, hi =>
    let (v, g') := g.integer lo hi
    v :: g'.draws k lo hi

/-- The error taxonomy of spec section 7 that the claims exercise. -/
inductive SampleError where
  | insufficientPopulation
deriving DecidableEq

/-- Modelled from the spec: `stream.sample_without_replacement(population, k)`
(spec section 4.1), the sampling primitive behind the library's
`AgentList.random(k)`.  Draws one element at a time by index, removes it from
the population, and fails with `InsufficientPopulation` when the population is
exhausted before `k` elements have been drawn. -/
def sampleWithoutReplacement {α : Type} [DecidableEq α] :
    RandomStream → List α → Nat → Except SampleError (List α × RandomStream)
  | g, _, 0 => .ok ([], g)
  | g, pop, k + 1 =>
    if h : 0 < pop.length then
      let x := pop.get ⟨g.next.1 % pop.length, Nat.mod_lt _ h⟩
      match sampleWithoutReplacement g.next.2 (pop.erase x) k with
      | .ok (l, g'') => .ok (x :: l, g'')
      | .error e => .error e
    else
      .error .insufficientPopulation

/-- Modelled from the spec: the Entity Registry of `n` entities with
sequential identifiers (spec section 4.2); identifiers are `0, …, n-1`. -/
def registry (n : Nat) : List (Fin n) :=
  List.finRange n

/-- Modelled from the spec: `random(k, stream)` of the Entity Registry
(spec section 4.2): `k` entities sampled without replacement. -/
def registryRandom (n : Nat) (g : RandomStream) (k : Nat) :
    Except SampleError (List (Fin n) × RandomStream) :=
  sampleWithoutReplacement g (registry n) k

/-- Modelled from the spec: the Simulation Loop `run(model, steps)` (spec
section 4.4).  For `i` in `0..steps` inclusive it invokes the `update` hook
(`measure`, appending one measurement), and for `i < steps` the `step` hook
(`stepF`); measurement happens before mutation in the same iteration.  Returns
the recorded measurement series and the final state. -/
def runLoop {σ μ : Type} (stepF : σ → σ) (measure : σ → μ) : Nat → σ → List μ × σ
  | 0, s => ([measure s], s)
  | n + 1, s =>
    let r := runLoop stepF measure n (stepF s)
    (measure s :: r.1, r.2)

/-- `WealthAgent.wealth_transfer` from the wealth-transfer notebook: if the
calling agent `i` has positive wealth, the drawn `partner` gains one unit and
the caller then loses one unit; otherwise nothing happens. -/
def wealthTransfer {n : Nat} (i partner : Fin n) (w : Fin n → Int) : Fin n → Int :=
  if 0 < w i then
    let w1 := Function.update w partner (w partner + 1)
    Function.update w1 i (w1 i - 1)
  else
    w

/-- `WealthModel.step` from the notebook: every agent executes
`wealth_transfer` in registry (creation) order; `choice i` is the partner the
model's random source draws for agent `i`. -/
def wealthStep {n : Nat} (choice : Fin n → Fin n) (w : Fin n → Int) : Fin n → Int :=
  (List.finRange n).foldl (fun w i => wealthTransfer i (choice i) w) w

/-- `t` steps of the wealth model; `choices t` gives the partner draws used in
step number `t`. -/
def wealthRun {n : Nat} (choices : Nat → Fin n → Fin n) :
    Nat → (Fin n → Int) → (Fin n → Int)
  | 0, w => w
  | t + 1, w => wealthStep (choices t) (wealthRun choices t w)

/-- `WealthAgent.setup` from the notebook: every agent starts with wealth 1. -/
def wealthInit (n : Nat) : Fin n → Int := fun _ => 1

/-- Total wealth of all agents. -/
def sumWealth {n : Nat} (w : Fin n → Int) : Int := ∑ i, w i

/-- `gini(x)` from the wealth-transfer notebook: half the relative mean
absolute difference, `0.5 * (mad / mean)` with
`mad = mean of |x i - x j| over all ordered pairs`. -/
def gini {n : Nat} (x : Fin n → ℚ) : ℚ :=
  1 / 2 * ((∑ i, ∑ j, |x i - x j|) / (n ^ 2 : ℚ) / ((∑ i, x i) / (n : ℚ)))

/-- The wealth of agent `i` as a rational, as fed to `gini` by
`WealthModel.update`. -/
def wealthQ {n : Nat} (w : Fin n → Int) : Fin n → ℚ := fun i => (w i : ℚ)

/-- The recorded series of the wealth model: `WealthModel.update` records the
Gini coefficient of the current wealths at each iteration of the Simulation
Loop. -/
def wealthSeries (n : Nat) (choices : Nat → Fin n → Fin n) (steps : Nat) : List ℚ :=
  (runLoop (fun p : Nat × (Fin n → Int) => (p.1 + 1, wealthStep (choices p.1) p.2))
    (fun p => gini (wealthQ p.2)) steps (0, wealthInit n)).1

/-- The Relation Graph's edge relation: `a` and `b` are joined by some
inserted edge; edges are unordered pairs, so either orientation counts
(spec section 3, 4.3). -/
def edgeRel {n : Nat} (es : List (Fin n × Fin n)) (a b : Fin n) : Prop :=
  (a, b) ∈ es ∨ (b, a) ∈ es

instance {n : Nat} (es : List (Fin n × Fin n)) : DecidableRel (edgeRel es) :=
  fun a b => inferInstanceAs (Decidable ((a, b) ∈ es ∨ (b, a) ∈ es))

/-- Path-connectivity over the Relation Graph: "two entities are in the same
set iff connected by a path of edges" (spec section 4.3). -/
def Reach {n : Nat} (es : List (Fin n × Fin n)) (a b : Fin n) : Prop :=
  Relation.ReflTransGen (edgeRel es) a b

/-- Modelled from the spec: the union/relabel step of the union-find structure
behind `connected_components` (spec section 4.3): merging the classes of `a`
and `b` relabels everything carrying `a`'s label to `b`'s label. -/
def mergeLabels {n : Nat} (l : Fin n → Fin n) (a b : Fin n) : Fin n → Fin n :=
  fun v => if l v = l a then l b else l v

/-- Modelled from the spec: the component labelling after a sequence of
`add_edge` calls (spec section 4.3); the library's `connected_components` is
external to the notebooks, so we implement its union-find contract by label
merging, one union per inserted edge. -/
def labelOf {n : Nat} : List (Fin n × Fin n) → Fin n → Fin n
  | [] => fun v => v
  | e :: es => mergeLabels (labelOf es) e.1 e.2

/-- The connected component of entity `v`: all entities with `v`'s label. -/
def componentOf {n : Nat} (es : List (Fin n × Fin n)) (v : Fin n) : Finset (Fin n) :=
  Finset.univ.filter (fun u => labelOf es u = labelOf es v)

/-- Modelled from the spec: `connected_components()` (spec section 4.3), the
set of components of all registered entities. -/
def componentsOf {n : Nat} (es : List (Fin n × Fin n)) : Finset (Finset (Fin n)) :=
  Finset.univ.image (componentOf es)

/-- The number of connected components. -/
def numComponents {n : Nat} (es : List (Fin n × Fin n)) : Nat :=
  (componentsOf es).card

/-- `max(len(c) for c in clusters)` from `ButtonModel.update`: the size of the
largest connected component. -/
def maxClusterSize {n : Nat} (es : List (Fin n × Fin n)) : Nat :=
  (componentsOf es).sup Finset.card

/-- `ButtonModel` state from the button-network notebook: the Relation Graph
over the `n` button agents as the list of inserted edges, and the thread
counter. -/
structure ButtonState (n : Nat) where
  edges : List (Fin n × Fin n)
  threads : Nat
deriving DecidableEq

/-- `int(self.p.n * self.p.speed)` from `ButtonModel.step`, the number of
edges drawn per step; the float parameter `speed` is modelled as a rational
(for nonnegative values `int` truncation is the floor). -/
def numEdgesPerStep (n : Nat) (speed : ℚ) : Nat :=
  (⌊(n : ℚ) * speed⌋).toNat

/-- One evaluation of `self.agents.random(2)` from `ButtonModel.step`: a
sample of two agents without replacement, paired up as an edge. -/
def drawPair (n : Nat) (g : RandomStream) :
    Except SampleError ((Fin n × Fin n) × RandomStream) :=
  match registryRandom n g 2 with
  | .ok ([a, b], g') => .ok ((a, b), g')
  | .ok _ => .error .insufficientPopulation
  | .error e => .error e

/-- The loop body of `ButtonModel.step`: perform `k` draws, adding each drawn
pair to the Relation Graph and incrementing the thread counter. -/
def addRandomEdges (n : Nat) : Nat → ButtonState n → RandomStream →
    Except SampleError (ButtonState n × RandomStream)
  | 0, st, g => .ok (st, g)
  | k + 1, st, g =>
    match drawPair n g with
    | .ok (e, g') => addRandomEdges n k ⟨e :: st.edges, st.threads + 1⟩ g'
    | .error err => .error err

/-- `ButtonModel.step`: draw `int(n * speed)` random edges. -/
def buttonStep (n : Nat) (speed : ℚ) (st : ButtonState n) (g : RandomStream) :
    Except SampleError (ButtonState n × RandomStream) :=
  addRandomEdges n (numEdgesPerStep n speed) st g

/-- `ButtonModel.update`: record the relative size of the biggest cluster and
the threads-to-button ratio. -/
def buttonMeasure (n : Nat) (st : ButtonState n) : ℚ × ℚ :=
  ((maxClusterSize st.edges : ℚ) / (n : ℚ), (st.threads : ℚ) / (n : ℚ))

/-- The button model's Simulation Loop in the failure monad: measurement before
mutation each iteration, errors aborting the run. -/
def buttonLoop (n : Nat) (speed : ℚ) : Nat → ButtonState n → RandomStream →
    Except SampleError (List (ℚ × ℚ) × ButtonState n)
  | 0, st, _ => .ok ([buttonMeasure n st], st)
  | k + 1, st, g =>
    match buttonStep n speed st g with
    | .ok (st', g') =>
      match buttonLoop n speed k st' g' with
      | .ok (ms, stf) => .ok (buttonMeasure n st :: ms, stf)
      | .error e => .error e
    | .error e => .error e

/-- A full run of the button model: `setup` creates `n` agents, an empty
Relation Graph and a zero thread counter; then the Simulation Loop runs for
`steps` steps from a stream seeded with `seed`. -/
def buttonRun (n : Nat) (speed : ℚ) (seed : Nat) (steps : Nat) :
    Except SampleError (List (ℚ × ℚ) × ButtonState n) :=
  buttonLoop n speed steps ⟨[], 0⟩ (RandomStream.create seed)

/-- An element of a nodup list is not a member of the list with that element
erased. -/
lemma not_mem_erase_self {α : Type} [DecidableEq α] {l : List α} (hl : l.Nodup)
    (x : α) : x ∉ l.erase x := by
  intro hx
  by_cases hmem : x ∈ l
  · have h1 : l.count x = 1 :=
      Nat.le_antisymm (List.nodup_iff_count_le_one.mp hl x) (List.count_pos_iff.mpr hmem)
    have h0 : (l.erase x).count x = 0 := by
      rw [List.count_erase_self, h1]
    exact (List.count_eq_zero.mp h0) hx
  · exact hmem (List.mem_of_mem_erase hx)

/-- Successful-sampling lemma: when `k` does not exceed the population size,
`sampleWithoutReplacement` returns `k` elements of the population, with no
duplicates whenever the population itself has none. -/
lemma sample_ok {α : Type} [DecidableEq α] :
    ∀ (k : Nat) (pop : List α) (g : RandomStream), k ≤ pop.length →
      ∃ l g', sampleWithoutReplacement g pop k = .ok (l, g') ∧
        l.length = k ∧ (∀ x ∈ l, x ∈ pop) ∧ (pop.Nodup → l.Nodup) := by
  intro k
  induction k with
  | zero =>
    intro pop g _
    exact ⟨[], g, rfl, rfl, by simp, fun _ => List.nodup_nil⟩
  | succ k ih =>
    intro pop g hk
    have hpos : 0 < pop.length := Nat.lt_of_lt_of_le (Nat.succ_pos k) hk
    set x := pop.get ⟨g.next.1 % pop.length, Nat.mod_lt _ hpos⟩ with hx
    have hxmem : x ∈ pop := pop.get_mem _ _
    have hlen : (pop.erase x).length + 1 = pop.length := List.length_erase_add_one hxmem
    have hk' : k ≤ (pop.erase x).length := by omega
    obtain ⟨l, g'', heq, hlenl, hsub, hnd⟩ := ih (pop.erase x) g.next.2 hk'
    refine ⟨x :: l, g'', ?_, by simp [hlenl], ?_, ?_⟩
    · rw [sampleWithoutReplacement]
      rw [dif_pos hpos]
      simp only [← hx, heq]
    · intro y hy
      rcases List.mem_cons.mp hy with h | h
      · exact h ▸ hxmem
      · exact List.mem_of_mem_erase (hsub y h)
    · intro hnodup
      refine List.nodup_cons.mpr ⟨?_, hnd (hnodup.erase x)⟩
      intro hxl
      exact not_mem_erase_self hnodup x (hsub x hxl)

/-- Failure lemma: when `k` exceeds the population size,
`sampleWithoutReplacement` fails with `InsufficientPopulation`. -/
lemma sample_err {α : Type} [DecidableEq α] :
    ∀ (k : Nat) (pop : List α) (g : RandomStream), pop.length < k →
      sampleWithoutReplacement g pop k = .error .insufficientPopulation := by
  intro k
  induction k with
  | zero => intro pop g h; omega
  | succ k ih =>
    intro pop g hk
    by_cases hpos : 0 < pop.length
    · set x := pop.get ⟨g.next.1 % pop.length, Nat.mod_lt _ hpos⟩ with hx
      have hxmem : x ∈ pop := pop.get_mem _ _
      have hlen : (pop.erase x).length + 1 = pop.length := List.length_erase_add_one hxmem
      have hrec := ih (pop.erase x) g.next.2 (by omega)
      rw [sampleWithoutReplacement]
      rw [dif_pos hpos]
      simp only [← hx, hrec]
    · rw [sampleWithoutReplacement]
      rw [dif_neg hpos]

/-- Characterization of the Simulation Loop: the recorded series lists, for
each `i` in `0..steps`, the measurement of the state after exactly `i` step
invocations, and the final state is the `steps`-fold iterate of the step
hook. -/
lemma runLoop_eq {σ μ : Type} (stepF : σ → σ) (measure : σ → μ) :
    ∀ (steps : Nat) (init : σ),
      runLoop stepF measure steps init =
        ((List.range (steps + 1)).map (fun i => measure (stepF^[i] init)),
          stepF^[steps] init) := by
  intro steps
  induction steps with
  | zero => intro init; simp [runLoop, List.range_succ]
  | succ n ih =>
    intro init
    rw [runLoop, ih (stepF init)]
    refine Prod.ext ?_ ?_
    · show measure init :: _ = _
      conv_rhs => rw [List.range_succ_eq_map, List.map_cons, List.map_map]
      have htail : List.map (fun i => measure (stepF^[i] (stepF init))) (List.range (n + 1)) =
          List.map ((fun i => measure (stepF^[i] init)) ∘ Nat.succ) (List.range (n + 1)) := by
        refine List.map_congr_left ?_
        intro a _
        simp [Function.iterate_succ_apply]
      rw [htail]
      rfl
    · show stepF^[n] (stepF init) = stepF^[n + 1] init
      rw [Function.iterate_succ_apply]

/-- Summing a pointwise update adds the difference between the new and the
old value. -/
lemma sum_update_int {n : Nat} (w : Fin n → Int) (i : Fin n) (v : Int) :
    ∑ j, Function.update w i v j = v - w i + ∑ j, w j := by
  rw [Finset.sum_update_of_mem (Finset.mem_univ i)]
  rw [Finset.sum_eq_sum_diff_singleton_add (Finset.mem_univ i) w]
  ring

/-- A single `wealth_transfer` call conserves total wealth. -/
lemma transfer_sum {n : Nat} (i p : Fin n) (w : Fin n → Int) :
    sumWealth (wealthTransfer i p w) = sumWealth w := by
  unfold wealthTransfer sumWealth
  by_cases h : 0 < w i
  · simp only [if_pos h]
    rw [sum_update_int, sum_update_int]
    ring
  · rw [if_neg h]

/-- A single `wealth_transfer` call keeps every wealth nonnegative. -/
lemma transfer_nonneg {n : Nat} (i p : Fin n) (w : Fin n → Int)
    (h0 : ∀ j, 0 ≤ w j) : ∀ j, 0 ≤ wealthTransfer i p w j := by
  intro j
  unfold wealthTransfer
  by_cases h : 0 < w i
  · simp only [if_pos h, Function.update_apply]
    have hj := h0 j
    have hp := h0 p
    have hi := h0 i
    split_ifs <;> subst_vars <;> omega
  · rw [if_neg h]
    exact h0 j

/-- Folding `wealth_transfer` over any agent list conserves total wealth. -/
lemma foldl_transfer_sum {n : Nat} (choice : Fin n → Fin n) :
    ∀ (l : List (Fin n)) (w : Fin n → Int),
      sumWealth (l.foldl (fun w i => wealthTransfer i (choice i) w) w) = sumWealth w := by
  intro l
  induction l with
  | nil => intro w; rfl
  | cons a l ih => intro w; rw [List.foldl_cons, ih, transfer_sum]

/-- Folding `wealth_transfer` over any agent list keeps wealths nonnegative. -/
lemma foldl_transfer_nonneg {n : Nat} (choice : Fin n → Fin n) :
    ∀ (l : List (Fin n)) (w : Fin n → Int), (∀ j, 0 ≤ w j) →
      ∀ j, 0 ≤ l.foldl (fun w i => wealthTransfer i (choice i) w) w j := by
  intro l
  induction l with
  | nil => intro w h0; exact h0
  | cons a l ih =>
    intro w h0
    rw [List.foldl_cons]
    exact ih _ (transfer_nonneg a (choice a) w h0)

/-- One model step conserves total wealth. -/
lemma step_sum {n : Nat} (choice : Fin n → Fin n) (w : Fin n → Int) :
    sumWealth (wealthStep choice w) = sumWealth w :=
  foldl_transfer_sum choice (List.finRange n) w

/-- Any number of model steps conserves total wealth. -/
lemma run_sum {n : Nat} (choices : Nat → Fin n → Fin n) :
    ∀ (t : Nat) (w : Fin n → Int), sumWealth (wealthRun choices t w) = sumWealth w := by
  intro t
  induction t with
  | zero => intro w; rfl
  | succ t ih => intro w; rw [wealthRun, step_sum, ih]

/-- Any number of model steps keeps every wealth nonnegative. -/
lemma run_nonneg {n : Nat} (choices : Nat → Fin n → Fin n) :
    ∀ (t : Nat) (w : Fin n → Int), (∀ j, 0 ≤ w j) →
      ∀ j, 0 ≤ wealthRun choices t w j := by
  intro t
  induction t with
  | zero => intro w h0; exact h0
  | succ t ih =>
    intro w h0
    rw [wealthRun]
    exact foldl_transfer_nonneg _ _ _ (ih w h0)

/-- A transfer whose partner is the caller itself leaves the wealth
assignment unchanged: the increment and the decrement cancel. -/
lemma transfer_self {n : Nat} (i : Fin n) (w : Fin n → Int) :
    wealthTransfer i i w = w := by
  unfold wealthTransfer
  by_cases h : 0 < w i
  · rw [if_pos h]
    show Function.update (Function.update w i (w i + 1)) i
      (Function.update w i (w i + 1) i - 1) = w
    rw [Function.update_same, Function.update_idem]
    have hv : w i + 1 - 1 = w i := by ring
    rw [hv, Function.update_eq_self]
  · rw [if_neg h]

/-- `gini` is nonnegative on nonnegative inputs. -/
lemma gini_nonneg {n : Nat} (x : Fin n → ℚ) (h0 : ∀ i, 0 ≤ x i) : 0 ≤ gini x := by
  unfold gini
  have hD : 0 ≤ ∑ i, ∑ j, |x i - x j| :=
    Finset.sum_nonneg fun i _ => Finset.sum_nonneg fun j _ => abs_nonneg _
  have hS : 0 ≤ ∑ i, x i := Finset.sum_nonneg fun i _ => h0 i
  have hn2 : (0:ℚ) ≤ (n ^ 2 : ℚ) := by positivity
  have hn : (0:ℚ) ≤ (n : ℚ) := by positivity
  have := div_nonneg (div_nonneg hD hn2) (div_nonneg hS hn)
  linarith

/-- `gini` is at most 1 on nonnegative inputs with positive total. -/
lemma gini_le_one {n : Nat} (x : Fin n → ℚ) (h0 : ∀ i, 0 ≤ x i)
    (hS : 0 < ∑ i, x i) : gini x ≤ 1 := by
  have hn : 0 < n := by
    rcases Nat.eq_zero_or_pos n with h | h
    · subst h
      simp at hS
    · exact h
  have hnq : (0:ℚ) < (n : ℚ) := by exact_mod_cast hn
  have key : ∀ i j : Fin n, |x i - x j| ≤ x i + x j := by
    intro i j
    rw [abs_sub_le_iff]
    constructor
    · have := h0 j; linarith
    · have := h0 i; linarith
  have hD : ∑ i, ∑ j, |x i - x j| ≤ 2 * (n : ℚ) * ∑ i, x i := by
    calc ∑ i, ∑ j, |x i - x j| ≤ ∑ i, ∑ j, (x i + x j) := by
          refine Finset.sum_le_sum fun i _ => Finset.sum_le_sum fun j _ => key i j
      _ = ∑ i : Fin n, ((n : ℚ) * x i + ∑ j, x j) := by
          refine Finset.sum_congr rfl fun i _ => ?_
          rw [Finset.sum_add_distrib, Finset.sum_const, Finset.card_univ,
            Fintype.card_fin, nsmul_eq_mul]
      _ = 2 * (n : ℚ) * ∑ i, x i := by
          rw [Finset.sum_add_distrib, ← Finset.mul_sum, Finset.sum_const,
            Finset.card_univ, Fintype.card_fin, nsmul_eq_mul]
          ring
  unfold gini
  have hns : (0:ℚ) < (n : ℚ) * ∑ i, x i := mul_pos hnq hS
  have hform : (∑ i, ∑ j, |x i - x j|) / (n ^ 2 : ℚ) / ((∑ i, x i) / (n : ℚ)) =
      (∑ i, ∑ j, |x i - x j|) / ((n : ℚ) * ∑ i, x i) := by
    field_simp
    ring
  rw [hform]
  have hhalf : 1 / 2 * ((∑ i, ∑ j, |x i - x j|) / ((n : ℚ) * ∑ i, x i)) =
      (∑ i, ∑ j, |x i - x j|) / (2 * ((n : ℚ) * ∑ i, x i)) := by
    ring
  rw [hhalf, div_le_one (by linarith)]
  linarith

/-- The instrumented step of the wealth model's Simulation Loop iterates to
the step counter paired with the wealth assignment after that many steps. -/
lemma wealthStepP_iterate {n : Nat} (choices : Nat → Fin n → Fin n) :
    ∀ (t : Nat) (w : Fin n → Int),
      (fun p : Nat × (Fin n → Int) =>
        (p.1 + 1, wealthStep (choices p.1) p.2))^[t] (0, w) =
        (t, wealthRun choices t w) := by
  intro t
  induction t with
  | zero => intro w; rfl
  | succ t ih =>
    intro w
    rw [Function.iterate_succ_apply', ih w]
    rfl

/-- The recorded series of the wealth model lists the Gini coefficient of the
wealth assignment after each number of completed steps. -/
lemma wealthSeries_eq (n : Nat) (choices : Nat → Fin n → Fin n) (steps : Nat) :
    wealthSeries n choices steps =
      (List.range (steps + 1)).map
        (fun i => gini (wealthQ (wealthRun choices i (wealthInit n)))) := by
  unfold wealthSeries
  rw [runLoop_eq]
  show List.map _ _ = List.map _ _
  refine List.map_congr_left ?_
  intro a _
  show gini (wealthQ ((_ : Nat × (Fin n → Int))).2) = _
  rw [wealthStepP_iterate]

/-- Folding self-partner transfers over any agent list is the identity. -/
lemma foldl_transfer_self {n : Nat} :
    ∀ (l : List (Fin n)) (w : Fin n → Int),
      l.foldl (fun w i => wealthTransfer i i w) w = w := by
  intro l
  induction l with
  | nil => intro w; rfl
  | cons a l ih =>
    intro w
    rw [List.foldl_cons, transfer_self]
    exact ih w

/-- C3: for every model and every number of steps, the Simulation Loop invokes
the `update` hook once for each `i` in `0..steps` inclusive (the recorded
series has `steps + 1` entries, entry `i` being the measurement of the state
after exactly `i` completed `step` invocations, so entry 0 measures the
initial state) and the `step` hook once for each `i < steps` (the final state
is the `steps`-fold iterate of the step hook). -/
theorem run_update_step_ordering {σ μ : Type} (stepF : σ → σ) (measure : σ → μ)
    (steps : Nat) (init : σ) :
    (runLoop stepF measure steps init).1 =
      (List.range (steps + 1)).map (fun i => measure (stepF^[i] init)) ∧
    (runLoop stepF measure steps init).2 = stepF^[steps] init := by
  rw [runLoop_eq]
  exact ⟨rfl, rfl⟩

/-- C2: in the wealth-transfer model with 100 agents each starting with wealth
1, for every sequence of random partner draws the total wealth equals 100
after every number of completed steps, the Gini coefficient computed by the
`update` hook lies in the closed interval `[0, 1]` at every step, and the
recorded series of the 100-step run consists exactly of these per-step Gini
values. -/
theorem wealth_total_conserved_and_gini_in_unit_interval :
    ∀ (choices : Nat → Fin 100 → Fin 100) (t : Nat),
      sumWealth (wealthRun choices t (wealthInit 100)) = 100 ∧
      0 ≤ gini (wealthQ (wealthRun choices t (wealthInit 100))) ∧
      gini (wealthQ (wealthRun choices t (wealthInit 100))) ≤ 1 ∧
      wealthSeries 100 choices 100 =
        (List.range 101).map
          (fun i => gini (wealthQ (wealthRun choices i (wealthInit 100)))) := by
  intro choices t
  have hsum0 : sumWealth (wealthInit 100) = 100 := by
    unfold sumWealth wealthInit
    simp
  have hsum : sumWealth (wealthRun choices t (wealthInit 100)) = 100 := by
    rw [run_sum, hsum0]
  have hnn : ∀ j, 0 ≤ wealthRun choices t (wealthInit 100) j :=
    run_nonneg choices t _ (fun _ => Int.one_nonneg)
  have hnnQ : ∀ j, 0 ≤ wealthQ (wealthRun choices t (wealthInit 100)) j := by
    intro j
    unfold wealthQ
    exact_mod_cast hnn j
  have hSQ : 0 < ∑ i, wealthQ (wealthRun choices t (wealthInit 100)) i := by
    have hc : (∑ i, wealthQ (wealthRun choices t (wealthInit 100)) i) =
        ((sumWealth (wealthRun choices t (wealthInit 100)) : Int) : ℚ) := by
      unfold wealthQ sumWealth
      push_cast
      rfl
    rw [hc, hsum]
    norm_num
  exact ⟨hsum, gini_nonneg _ hnnQ, gini_le_one _ hnnQ hSQ,
    wealthSeries_eq 100 choices 100⟩

/-- C8: every agent's wealth stays nonnegative after every operation:
`wealth_transfer` decrements the caller only under the guard that its wealth
is strictly positive and every other mutation is an increment, so no sequence
of steps makes any wealth negative. -/
theorem wealth_never_negative {n : Nat} (choices : Nat → Fin n → Fin n)
    (w : Fin n → Int) (h0 : ∀ j, 0 ≤ w j) (t : Nat) (j : Fin n) :
    0 ≤ wealthRun choices t w j :=
  run_nonneg choices t w h0 j

/-- Witness for C8 at a concrete input: two agents starting at wealth 1 and
three steps of self-draws. -/
theorem wealth_never_negative_witness :
    0 ≤ wealthRun (fun _ i => i) 3 (wealthInit 2) 0 :=
  wealth_never_negative (fun _ i => i) (wealthInit 2) (fun _ => Int.one_nonneg) 3 0

/-- C9: the partner of `wealth_transfer` is drawn from all agents of the model
including the caller itself; whenever the caller draws itself, the increment
and the decrement cancel and the wealth assignment is unchanged — both for one
call and for a whole step in which every agent draws itself. -/
theorem wealth_transfer_self_partner_cancels {n : Nat} :
    (∀ (i : Fin n) (w : Fin n → Int), wealthTransfer i i w = w) ∧
    (∀ w : Fin n → Int, wealthStep (fun i => i) w = w) := by
  refine ⟨fun i w => transfer_self i w, fun w => ?_⟩
  exact foldl_transfer_self (List.finRange n) w

/-- The edge relation is symmetric: edges are unordered. -/
lemma edgeRel_symm {n : Nat} (es : List (Fin n × Fin n)) :
    Symmetric (edgeRel es) := fun _ _ h => Or.symm h

/-- Reachability is reflexive. -/
lemma reach_refl {n : Nat} (es : List (Fin n × Fin n)) (a : Fin n) :
    Reach es a a := Relation.ReflTransGen.refl

/-- Reachability is symmetric. -/
lemma reach_symm {n : Nat} {es : List (Fin n × Fin n)} {a b : Fin n}
    (h : Reach es a b) : Reach es b a :=
  (Relation.ReflTransGen.symmetric (edgeRel_symm es)) h

/-- Reachability is transitive. -/
lemma reach_trans {n : Nat} {es : List (Fin n × Fin n)} {a b c : Fin n}
    (h1 : Reach es a b) (h2 : Reach es b c) : Reach es a c :=
  Relation.ReflTransGen.trans h1 h2

/-- A single edge yields reachability. -/
lemma reach_single {n : Nat} {es : List (Fin n × Fin n)} {a b : Fin n}
    (h : edgeRel es a b) : Reach es a b :=
  Relation.ReflTransGen.single h

/-- Adding an edge preserves existing reachability. -/
lemma reach_mono_cons {n : Nat} (e : Fin n × Fin n) {es : List (Fin n × Fin n)}
    {a b : Fin n} (h : Reach es a b) : Reach (e :: es) a b := by
  refine Relation.ReflTransGen.mono ?_ h
  intro x y hxy
  rcases hxy with h' | h'
  · exact Or.inl (List.mem_cons_of_mem e h')
  · exact Or.inr (List.mem_cons_of_mem e h')

/-- The edge relation after inserting the edge `(a, b)`. -/
lemma edgeRel_cons {n : Nat} (a b : Fin n) (es : List (Fin n × Fin n)) (x y : Fin n) :
    edgeRel ((a, b) :: es) x y ↔
      edgeRel es x y ∨ (x = a ∧ y = b) ∨ (x = b ∧ y = a) := by
  unfold edgeRel
  simp only [List.mem_cons, Prod.ext_iff]
  tauto

/-- Decomposition of reachability after inserting the edge `(a, b)`: a path in
the new graph either avoids the new edge, or crosses it in one of the two
directions. -/
lemma reach_cons_iff {n : Nat} (a b : Fin n) (es : List (Fin n × Fin n)) (u v : Fin n) :
    Reach ((a, b) :: es) u v ↔
      Reach es u v ∨ (Reach es u a ∧ Reach es b v) ∨
        (Reach es u b ∧ Reach es a v) := by
  constructor
  · intro h
    induction h with
    | refl => exact Or.inl (reach_refl es u)
    | @tail w x hr hstep ih =>
      rcases (edgeRel_cons a b es w x).mp hstep with hold | ⟨hwa, hxb⟩ | ⟨hwb, hxa⟩
      · rcases ih with h1 | ⟨h1, h2⟩ | ⟨h1, h2⟩
        · exact Or.inl (reach_trans h1 (reach_single hold))
        · exact Or.inr (Or.inl ⟨h1, reach_trans h2 (reach_single hold)⟩)
        · exact Or.inr (Or.inr ⟨h1, reach_trans h2 (reach_single hold)⟩)
      · rw [hwa] at ih
        rw [hxb]
        rcases ih with h1 | ⟨h1, h2⟩ | ⟨h1, h2⟩
        · exact Or.inr (Or.inl ⟨h1, reach_refl es b⟩)
        · exact Or.inr (Or.inl ⟨h1, reach_refl es b⟩)
        · exact Or.inl h1
      · rw [hwb] at ih
        rw [hxa]
        rcases ih with h1 | ⟨h1, h2⟩ | ⟨h1, h2⟩
        · exact Or.inr (Or.inr ⟨h1, reach_refl es a⟩)
        · exact Or.inl h1
        · exact Or.inr (Or.inr ⟨h1, reach_refl es a⟩)
  · have hmemab : edgeRel ((a, b) :: es) a b := Or.inl (List.mem_cons_self (a, b) es)
    have hmemba : edgeRel ((a, b) :: es) b a := Or.inr (List.mem_cons_self (a, b) es)
    rintro (h | ⟨h1, h2⟩ | ⟨h1, h2⟩)
    · exact reach_mono_cons (a, b) h
    · exact reach_trans (reach_mono_cons (a, b) h1)
        (reach_trans (reach_single hmemab) (reach_mono_cons (a, b) h2))
    · exact reach_trans (reach_mono_cons (a, b) h1)
        (reach_trans (reach_single hmemba) (reach_mono_cons (a, b) h2))

/-- Correctness of the label-merging implementation: two entities carry the
same label exactly when they are connected by a path of edges. -/
lemma labelOf_eq_iff_reach {n : Nat} :
    ∀ (es : List (Fin n × Fin n)) (u v : Fin n),
      labelOf es u = labelOf es v ↔ Reach es u v := by
  intro es
  induction es with
  | nil =>
    intro u v
    constructor
    · intro h
      have huv : u = v := h
      exact huv ▸ Relation.ReflTransGen.refl
    · intro h
      rcases Relation.ReflTransGen.cases_head h with h | ⟨c, hc, _⟩
      · rw [h]
      · rcases hc with h' | h' <;> simp at h'
  | cons e es ih =>
    intro u v
    rcases e with ⟨a, b⟩
    rw [reach_cons_iff]
    show mergeLabels (labelOf es) a b u = mergeLabels (labelOf es) a b v ↔ _
    unfold mergeLabels
    simp only [← ih]
    by_cases hu : labelOf es u = labelOf es a <;>
      by_cases hv : labelOf es v = labelOf es a
    · simp [hu, hv]
    · have hv' : labelOf es a ≠ labelOf es v := fun h => hv h.symm
      simp [hu, hv, hv']
    · simp [hu, hv]
    · have hv' : labelOf es a ≠ labelOf es v := fun h => hv h.symm
      simp [hu, hv, hv']

/-- Membership in a component is reachability. -/
lemma mem_componentOf {n : Nat} (es : List (Fin n × Fin n)) (u v : Fin n) :
    u ∈ componentOf es v ↔ Reach es u v := by
  unfold componentOf
  rw [Finset.mem_filter]
  simp [labelOf_eq_iff_reach es u v]

/-- Two components coincide exactly when their representatives are
connected. -/
lemma componentOf_eq_iff {n : Nat} (es : List (Fin n × Fin n)) (u v : Fin n) :
    componentOf es u = componentOf es v ↔ Reach es u v := by
  constructor
  · intro h
    have hu : u ∈ componentOf es v := h ▸ (mem_componentOf es u u).mpr (reach_refl es u)
    exact (mem_componentOf es u v).mp hu
  · intro h
    ext w
    rw [mem_componentOf, mem_componentOf]
    exact ⟨fun hw => reach_trans hw h, fun hw => reach_trans hw (reach_symm h)⟩

/-- If `v` reaches either endpoint of the new edge `(a, b)`, its component in
the new graph is the union of the two old endpoint components. -/
lemma componentOf_cons_merged {n : Nat} (es : List (Fin n × Fin n)) (a b v : Fin n)
    (h : Reach es v a ∨ Reach es v b) :
    componentOf ((a, b) :: es) v = componentOf es a ∪ componentOf es b := by
  ext u
  rw [mem_componentOf, Finset.mem_union, mem_componentOf, mem_componentOf,
    reach_cons_iff]
  constructor
  · rintro (hr | ⟨h1, _⟩ | ⟨h1, _⟩)
    · rcases h with hva | hvb
      · exact Or.inl (reach_trans hr hva)
      · exact Or.inr (reach_trans hr hvb)
    · exact Or.inl h1
    · exact Or.inr h1
  · rintro (hua | hub)
    · rcases h with hva | hvb
      · exact Or.inl (reach_trans hua (reach_symm hva))
      · exact Or.inr (Or.inl ⟨hua, reach_symm hvb⟩)
    · rcases h with hva | hvb
      · exact Or.inr (Or.inr ⟨hub, reach_symm hva⟩)
      · exact Or.inl (reach_trans hub (reach_symm hvb))

/-- If `v` reaches neither endpoint of the new edge `(a, b)`, its component is
unchanged by the insertion. -/
lemma componentOf_cons_untouched {n : Nat} (es : List (Fin n × Fin n)) (a b v : Fin n)
    (ha : ¬Reach es v a) (hb : ¬Reach es v b) :
    componentOf ((a, b) :: es) v = componentOf es v := by
  ext u
  rw [mem_componentOf, mem_componentOf, reach_cons_iff]
  constructor
  · rintro (h | ⟨_, h2⟩ | ⟨_, h2⟩)
    · exact h
    · exact absurd (reach_symm h2) hb
    · exact absurd (reach_symm h2) ha
  · exact fun h => Or.inl h

/-- Inserting an edge never increases the number of components. -/
lemma numComponents_cons_le {n : Nat} (es : List (Fin n × Fin n)) (e : Fin n × Fin n) :
    numComponents (e :: es) ≤ numComponents es := by
  classical
  unfold numComponents componentsOf
  have key : ∀ u v : Fin n, componentOf es u = componentOf es v →
      componentOf (e :: es) u = componentOf (e :: es) v := by
    intro u v h
    exact (componentOf_eq_iff _ u v).mpr
      (reach_mono_cons e ((componentOf_eq_iff es u v).mp h))
  have hmap : Finset.univ.image (componentOf (e :: es)) ⊆
      (Finset.univ.image (componentOf es)).image
        (fun c => if h : ∃ u, componentOf es u = c
          then componentOf (e :: es) h.choose else c) := by
    intro c hc
    rcases Finset.mem_image.mp hc with ⟨v, _, rfl⟩
    refine Finset.mem_image.mpr
      ⟨componentOf es v, Finset.mem_image_of_mem _ (Finset.mem_univ v), ?_⟩
    have hex : ∃ u, componentOf es u = componentOf es v := ⟨v, rfl⟩
    rw [dif_pos hex]
    exact key hex.choose v hex.choose_spec
  calc (Finset.univ.image (componentOf (e :: es))).card
      ≤ ((Finset.univ.image (componentOf es)).image _).card := Finset.card_le_card hmap
    _ ≤ (Finset.univ.image (componentOf es)).card := Finset.card_image_le

/-- When the endpoints of the new edge lie in different components, the new
component set replaces those two components by their union and keeps all
others. -/
lemma componentsOf_cons_merge {n : Nat} (es : List (Fin n × Fin n)) (a b : Fin n)
    (_hab : ¬Reach es a b) :
    componentsOf ((a, b) :: es) =
      insert (componentOf es a ∪ componentOf es b)
        (((componentsOf es).erase (componentOf es a)).erase (componentOf es b)) := by
  classical
  ext c
  simp only [componentsOf, Finset.mem_insert, Finset.mem_erase, Finset.mem_image,
    Finset.mem_univ, true_and]
  constructor
  · rintro ⟨v, rfl⟩
    by_cases hv : Reach es v a ∨ Reach es v b
    · exact Or.inl (componentOf_cons_merged es a b v hv)
    · push_neg at hv
      rw [componentOf_cons_untouched es a b v hv.1 hv.2]
      refine Or.inr ⟨?_, ?_, v, rfl⟩
      · exact fun h => hv.2 ((componentOf_eq_iff es v b).mp h)
      · exact fun h => hv.1 ((componentOf_eq_iff es v a).mp h)
  · rintro (rfl | ⟨hcb, hca, v, rfl⟩)
    · exact ⟨a, componentOf_cons_merged es a b a (Or.inl (reach_refl es a))⟩
    · refine ⟨v, ?_⟩
      rw [componentOf_cons_untouched es a b v ?_ ?_]
      · exact fun h => hca ((componentOf_eq_iff es v a).mpr h)
      · exact fun h => hcb ((componentOf_eq_iff es v b).mpr h)

/-- When the endpoints of the new edge lie in different components, the number
of components drops by exactly one. -/
lemma numComponents_cons_merge {n : Nat} (es : List (Fin n × Fin n)) (a b : Fin n)
    (hab : ¬Reach es a b) :
    numComponents ((a, b) :: es) + 1 = numComponents es := by
  classical
  have hne : componentOf es a ≠ componentOf es b :=
    fun h => hab ((componentOf_eq_iff es a b).mp h)
  have hAmem : componentOf es a ∈ componentsOf es :=
    Finset.mem_image_of_mem _ (Finset.mem_univ a)
  have hBmem : componentOf es b ∈ componentsOf es :=
    Finset.mem_image_of_mem _ (Finset.mem_univ b)
  have hunion_not : componentOf es a ∪ componentOf es b ∉ componentsOf es := by
    intro h
    rcases Finset.mem_image.mp h with ⟨v, _, hv⟩
    have ha' : a ∈ componentOf es v := by
      rw [hv]
      exact Finset.mem_union_left _ ((mem_componentOf es a a).mpr (reach_refl es a))
    have hb' : b ∈ componentOf es v := by
      rw [hv]
      exact Finset.mem_union_right _ ((mem_componentOf es b b).mpr (reach_refl es b))
    exact hab (reach_trans ((mem_componentOf es a v).mp ha')
      (reach_symm ((mem_componentOf es b v).mp hb')))
  have h2 : 2 ≤ (componentsOf es).card := by
    have := Finset.one_lt_card.mpr ⟨_, hAmem, _, hBmem, hne⟩
    omega
  rw [numComponents, componentsOf_cons_merge es a b hab,
    Finset.card_insert_of_not_mem ?hnotmem, Finset.card_erase_of_mem ?hbmem,
    Finset.card_erase_of_mem hAmem]
  case hnotmem =>
    intro h
    exact hunion_not (Finset.mem_of_mem_erase (Finset.mem_of_mem_erase h))
  case hbmem => exact Finset.mem_erase.mpr ⟨hne.symm, hBmem⟩
  show (componentsOf es).card - 1 - 1 + 1 + 1 = (componentsOf es).card
  omega

/-- C4: after any sequence of `add_edge` calls, `connected_components` is a
partition of all registered entities — every entity lies in its own component,
which is the unique component of the family containing it — two entities share
a component exactly when they are connected by a path of edges, and every
entity touched by no edge forms a singleton component. -/
theorem connected_components_partition {n : Nat} (es : List (Fin n × Fin n)) :
    (∀ v : Fin n, componentOf es v ∈ componentsOf es ∧ v ∈ componentOf es v) ∧
    (∀ v : Fin n, ∀ c ∈ componentsOf es, v ∈ c → c = componentOf es v) ∧
    (∀ u v : Fin n, u ∈ componentOf es v ↔ Reach es u v) ∧
    (∀ v : Fin n, (∀ e ∈ es, v ≠ e.1 ∧ v ≠ e.2) → componentOf es v = {v}) := by
  refine ⟨fun v => ⟨Finset.mem_image_of_mem _ (Finset.mem_univ v),
    (mem_componentOf es v v).mpr (reach_refl es v)⟩, ?_,
    fun u v => mem_componentOf es u v, ?_⟩
  · intro v c hc hvc
    rcases Finset.mem_image.mp hc with ⟨w, _, rfl⟩
    exact (componentOf_eq_iff es w v).mpr
      (reach_symm ((mem_componentOf es v w).mp hvc))
  · intro v hiso
    have hreach : ∀ u, Reach es v u → u = v := by
      intro u h
      rcases Relation.ReflTransGen.cases_head h with h | ⟨c, hc, _⟩
      · exact h.symm
      · rcases hc with h' | h'
        · exact absurd rfl (hiso (v, c) h').1
        · exact absurd rfl (hiso (c, v) h').2
    ext u
    rw [mem_componentOf, Finset.mem_singleton]
    constructor
    · intro h
      exact hreach u (reach_symm h)
    · intro h
      subst h
      exact reach_refl es u

/-- Witness for C4 on the 3-entity graph with the single edge `(0, 1)`:
entity 1's component is the unique component containing it, and the isolated
entity 2 forms a singleton. -/
theorem connected_components_partition_witness :
    componentOf [((0 : Fin 3), 1)] 1 = componentOf [((0 : Fin 3), 1)] 0 ∧
    componentOf [((0 : Fin 3), 1)] 2 = {2} :=
  ⟨(connected_components_partition [((0 : Fin 3), 1)]).2.1 0
      (componentOf [((0 : Fin 3), 1)] 1) (by decide) (by decide),
    (connected_components_partition [((0 : Fin 3), 1)]).2.2.2 2 (by decide)⟩

/-- C5: a single `add_edge(a, b)` call never increases the number of connected
components; when `a` and `b` lie in two different components the call merges
exactly those two components into one — the new component set is the old one
with the two endpoint components replaced by their union — and the component
count drops by exactly one. -/
theorem add_edge_merges_components {n : Nat} (es : List (Fin n × Fin n)) (a b : Fin n) :
    numComponents ((a, b) :: es) ≤ numComponents es ∧
    (componentOf es a ≠ componentOf es b →
      componentsOf ((a, b) :: es) =
        insert (componentOf es a ∪ componentOf es b)
          (((componentsOf es).erase (componentOf es a)).erase (componentOf es b)) ∧
      numComponents ((a, b) :: es) + 1 = numComponents es) := by
  refine ⟨numComponents_cons_le es (a, b), fun hne => ?_⟩
  have hab : ¬Reach es a b := fun h => hne ((componentOf_eq_iff es a b).mpr h)
  exact ⟨componentsOf_cons_merge es a b hab, numComponents_cons_merge es a b hab⟩

/-- Witness for C5: adding the edge `(0, 1)` to the empty 2-entity graph
merges the two singleton components into one. -/
theorem add_edge_merges_components_witness :
    componentsOf [((0 : Fin 2), 1)] =
      insert (componentOf ([] : List (Fin 2 × Fin 2)) 0 ∪
          componentOf ([] : List (Fin 2 × Fin 2)) 1)
        (((componentsOf ([] : List (Fin 2 × Fin 2))).erase
            (componentOf ([] : List (Fin 2 × Fin 2)) 0)).erase
          (componentOf ([] : List (Fin 2 × Fin 2)) 1)) ∧
    numComponents [((0 : Fin 2), 1)] + 1 =
      numComponents ([] : List (Fin 2 × Fin 2)) :=
  (add_edge_merges_components ([] : List (Fin 2 × Fin 2)) 0 1).2 (by decide)

/-- C6: for every entity registry of size `n`, `random(k)` with `k ≤ n`
returns `k` distinct entities drawn from the registry, and `random(k)` with
`k > n` fails with an `InsufficientPopulation` error. -/
theorem registry_random_spec (n : Nat) (g : RandomStream) (k : Nat) :
    (k ≤ n → ∃ l g', registryRandom n g k = .ok (l, g') ∧
      l.length = k ∧ l.Nodup ∧ ∀ x ∈ l, x ∈ registry n) ∧
    (n < k → registryRandom n g k = .error .insufficientPopulation) := by
  constructor
  · intro hk
    have hlen : (registry n).length = n := List.length_finRange n
    obtain ⟨l, g', heq, h1, h2, h3⟩ :=
      sample_ok k (registry n) g (by rw [hlen]; exact hk)
    exact ⟨l, g', heq, h1, h3 (List.nodup_finRange n), h2⟩
  · intro hk
    have hlen : (registry n).length = n := List.length_finRange n
    exact sample_err k (registry n) g (by rw [hlen]; exact hk)

/-- Witness for C6: sampling 2 of 3 entities succeeds with 2 distinct members
of the registry; sampling 2 of 1 fails with `InsufficientPopulation`. -/
theorem registry_random_spec_witness :
    (∃ l g', registryRandom 3 (RandomStream.create 1) 2 = .ok (l, g') ∧
      l.length = 2 ∧ l.Nodup ∧ ∀ x ∈ l, x ∈ registry 3) ∧
    registryRandom 1 (RandomStream.create 1) 2 = .error .insufficientPopulation :=
  ⟨(registry_random_spec 3 (RandomStream.create 1) 2).1 (by decide),
    (registry_random_spec 1 (RandomStream.create 1) 2).2 (by decide)⟩

/-- C1: reproducibility — two Random Streams constructed from the same seed
produce identical sequences of `k` draws under each deterministic sampling
method, and two independent model runs constructed with an identical seed,
the same parameters and the same step count record identical measurement
series. -/
theorem same_seed_same_output (s1 s2 : Nat) (h : s1 = s2) :
    (∀ k lo hi, (RandomStream.create s1).draws k lo hi =
      (RandomStream.create s2).draws k lo hi) ∧
    (∀ (pop : List Nat) k,
      sampleWithoutReplacement (RandomStream.create s1) pop k =
        sampleWithoutReplacement (RandomStream.create s2) pop k) ∧
    (∀ (n : Nat) (speed : ℚ) (steps : Nat),
      buttonRun n speed s1 steps = buttonRun n speed s2 steps) := by
  subst h
  exact ⟨fun _ _ _ => rfl, fun _ _ => rfl, fun _ _ _ => rfl⟩

/-- Witness for C1: seed 1 against seed 1, three draws and a 2-step
button-model run. -/
theorem same_seed_same_output_witness :
    (RandomStream.create 1).draws 3 0 9 = (RandomStream.create 1).draws 3 0 9 ∧
    buttonRun 2 (1 / 2) 1 2 = buttonRun 2 (1 / 2) 1 2 :=
  ⟨(same_seed_same_output 1 1 rfl).1 3 0 9,
    (same_seed_same_output 1 1 rfl).2.2 2 (1 / 2) 2⟩

/-- With at least two agents, one `agents.random(2)` draw always succeeds and
the resulting edge has distinct endpoints. -/
lemma drawPair_ok {n : Nat} (h2 : 2 ≤ n) (g : RandomStream) :
    ∃ (e : Fin n × Fin n) (g' : RandomStream),
      drawPair n g = .ok (e, g') ∧ e.1 ≠ e.2 := by
  have hlen : (registry n).length = n := List.length_finRange n
  obtain ⟨l, g', heq, hl, hsub, hnd⟩ :=
    sample_ok 2 (registry n) g (by rw [hlen]; exact h2)
  rcases List.length_eq_two.mp hl with ⟨a, b, rfl⟩
  have hnodup := hnd (List.nodup_finRange n)
  have hne : a ≠ b := by
    rw [List.nodup_cons] at hnodup
    intro hab
    exact hnodup.1 (by rw [hab]; exact List.mem_singleton_self b)
  refine ⟨(a, b), g', ?_, hne⟩
  unfold drawPair registryRandom
  rw [heq]

/-- With at least two agents, adding `k` random edges succeeds, incrementing
the thread counter `k` times and prepending exactly `k` edges, each with
distinct endpoints. -/
lemma addRandomEdges_ok {n : Nat} (h2 : 2 ≤ n) :
    ∀ (k : Nat) (st : ButtonState n) (g : RandomStream),
      ∃ st' g', addRandomEdges n k st g = .ok (st', g') ∧
        st'.threads = st.threads + k ∧
        ∃ new, st'.edges = new ++ st.edges ∧ new.length = k ∧
          ∀ e ∈ new, e.1 ≠ e.2 := by
  intro k
  induction k with
  | zero =>
    intro st g
    exact ⟨st, g, rfl, rfl, [], rfl, rfl, by simp⟩
  | succ k ih =>
    intro st g
    obtain ⟨e, g', heq, hne⟩ := drawPair_ok h2 g
    obtain ⟨st', g'', heq', hthr, new, hedges, hlen, hall⟩ :=
      ih ⟨e :: st.edges, st.threads + 1⟩ g'
    refine ⟨st', g'', ?_, ?_, new ++ [e], ?_, ?_, ?_⟩
    · rw [addRandomEdges, heq]
      exact heq'
    · rw [hthr]
      show st.threads + 1 + k = st.threads + (k + 1)
      omega
    · rw [hedges]
      simp
    · simp [hlen]
    · intro x hx
      rcases List.mem_append.mp hx with hx | hx
      · exact hall x hx
      · rw [List.mem_singleton.mp hx]
        exact hne

/-- With at least two agents, the button model's Simulation Loop always
succeeds; after `i` completed steps the thread counter has grown by
`i * int(n*speed)`, the edge list by as many distinct-endpoint edges, and the
recorded threads-to-button series lists exactly these counter values divided
by `n`. -/
lemma buttonLoop_ok {n : Nat} (h2 : 2 ≤ n) (speed : ℚ) :
    ∀ (steps : Nat) (st : ButtonState n) (g : RandomStream),
      ∃ ms stf, buttonLoop n speed steps st g = .ok (ms, stf) ∧
        ms.map Prod.snd = (List.range (steps + 1)).map
          (fun i => ((st.threads + i * numEdgesPerStep n speed : Nat) : ℚ) / (n : ℚ)) ∧
        stf.threads = st.threads + steps * numEdgesPerStep n speed ∧
        ∃ new, stf.edges = new ++ st.edges ∧
          new.length = steps * numEdgesPerStep n speed ∧ ∀ e ∈ new, e.1 ≠ e.2 := by
  intro steps
  induction steps with
  | zero =>
    intro st g
    refine ⟨[buttonMeasure n st], st, rfl, ?_, by simp, [], rfl, by simp, by simp⟩
    simp [buttonMeasure, List.range_succ]
  | succ k ih =>
    intro st g
    obtain ⟨st', g', hstep, hthr', new1, hedg1, hlen1, hall1⟩ :=
      addRandomEdges_ok h2 (numEdgesPerStep n speed) st g
    obtain ⟨ms, stf, hloop, hms, hthr, new2, hedg2, hlen2, hall2⟩ := ih st' g'
    have hstep' : buttonStep n speed st g = .ok (st', g') := hstep
    refine ⟨buttonMeasure n st :: ms, stf, ?_, ?_, ?_, new2 ++ new1, ?_, ?_, ?_⟩
    · simp only [buttonLoop, hstep', hloop]
    · show (buttonMeasure n st).2 :: ms.map Prod.snd = _
      rw [hms, hthr']
      conv_rhs => rw [List.range_succ_eq_map, List.map_cons, List.map_map]
      congr 1
      · show (st.threads : ℚ) / (n : ℚ) =
          ((st.threads + 0 * numEdgesPerStep n speed : Nat) : ℚ) / (n : ℚ)
        norm_num
      · refine List.map_congr_left ?_
        intro a _
        show ((st.threads + numEdgesPerStep n speed + a * numEdgesPerStep n speed : Nat) : ℚ) /
            (n : ℚ) = _
        have harg : st.threads + numEdgesPerStep n speed + a * numEdgesPerStep n speed =
            st.threads + Nat.succ a * numEdgesPerStep n speed := by
          rw [Nat.succ_eq_add_one]
          ring
        rw [harg]
        rfl
    · rw [hthr, hthr']
      show st.threads + numEdgesPerStep n speed + k * numEdgesPerStep n speed =
        st.threads + (k + 1) * numEdgesPerStep n speed
      ring
    · rw [hedg2, hedg1]
      simp
    · rw [List.length_append, hlen1, hlen2]
      ring
    · intro x hx
      rcases List.mem_append.mp hx with hx | hx
      · exact hall2 x hx
      · exact hall1 x hx

/-- C7: with at least two buttons, every single `step` hook invocation adds
exactly `int(n * speed)` edges to the relation graph and increments the
thread counter by the same amount; `int(n * speed)` is the floor of
`n * speed` for nonnegative `speed`; and in a full run the `threads_to_button`
value recorded after `i` steps equals `i * int(n * speed) / n`. -/
theorem button_step_adds_edges_and_threads {n : Nat} (speed : ℚ) (h2 : 2 ≤ n) :
    (0 ≤ speed → ((numEdgesPerStep n speed : Nat) : ℤ) = ⌊(n : ℚ) * speed⌋) ∧
    (∀ (st : ButtonState n) (g : RandomStream),
      ∃ st' g', buttonStep n speed st g = .ok (st', g') ∧
        st'.edges.length = st.edges.length + numEdgesPerStep n speed ∧
        st'.threads = st.threads + numEdgesPerStep n speed) ∧
    (∀ (seed steps : Nat),
      ∃ ms stf, buttonRun n speed seed steps = .ok (ms, stf) ∧
        ms.map Prod.snd = (List.range (steps + 1)).map
          (fun i => ((i * numEdgesPerStep n speed : Nat) : ℚ) / (n : ℚ))) := by
  refine ⟨?_, ?_, ?_⟩
  · intro hsp
    unfold numEdgesPerStep
    refine Int.toNat_of_nonneg (Int.floor_nonneg.mpr ?_)
    positivity
  · intro st g
    obtain ⟨st', g', heq, hthr, new, hedg, hlen, _⟩ :=
      addRandomEdges_ok h2 (numEdgesPerStep n speed) st g
    refine ⟨st', g', heq, ?_, hthr⟩
    rw [hedg, List.length_append, hlen]
    omega
  · intro seed steps
    obtain ⟨ms, stf, hloop, hms, _, _⟩ :=
      buttonLoop_ok h2 speed steps ⟨[], 0⟩ (RandomStream.create seed)
    refine ⟨ms, stf, hloop, ?_⟩
    rw [hms]
    refine List.map_congr_left ?_
    intro a _
    norm_num

/-- Witness for C7: two buttons at speed 1/2 draw `⌊2 * (1/2)⌋ = 1` edge per
step, and the one-step run records the matching thread ratios. -/
theorem button_step_adds_edges_and_threads_witness :
    ((numEdgesPerStep 2 (1 / 2) : Nat) : ℤ) = ⌊((2 : Nat) : ℚ) * (1 / 2)⌋ ∧
    (∃ ms stf, buttonRun 2 (1 / 2) 1 1 = .ok (ms, stf) ∧
      ms.map Prod.snd = (List.range 2).map
        (fun i => ((i * numEdgesPerStep 2 (1 / 2) : Nat) : ℚ) / ((2 : Nat) : ℚ))) :=
  ⟨(button_step_adds_edges_and_threads (1 / 2) (by norm_num)).1 (by norm_num),
    (button_step_adds_edges_and_threads (1 / 2) (by norm_num)).2.2 1 1⟩

/-- C10: the button model's relation graph never contains a self-loop — the
endpoints of every added edge come from `agents.random(2)`, a sample of two
agents without replacement, so the two endpoints of every edge ever inserted
are distinct. -/
theorem button_no_self_loops {n : Nat} (h2 : 2 ≤ n) (speed : ℚ) (seed steps : Nat) :
    ∃ ms stf, buttonRun n speed seed steps = .ok (ms, stf) ∧
      ∀ e ∈ stf.edges, e.1 ≠ e.2 := by
  obtain ⟨ms, stf, hloop, _, _, new, hedg, _, hall⟩ :=
    buttonLoop_ok h2 speed steps ⟨[], 0⟩ (RandomStream.create seed)
  refine ⟨ms, stf, hloop, ?_⟩
  intro e he
  rw [hedg] at he
  rcases List.mem_append.mp he with h | h
  · exact hall e h
  · simp at h

/-- Witness for C10: a one-step run with two buttons at speed 1/2. -/
theorem button_no_self_loops_witness :
    ∃ ms stf, buttonRun 2 (1 / 2) 1 1 = .ok (ms, stf) ∧
      ∀ e ∈ stf.edges, e.1 ≠ e.2 :=
  button_no_self_loops (by norm_num) (1 / 2) 1 1

end AgentPySpec
